import Mathlib

/-!
# Verification of emscripten-helper-rs core

Shallow embedding of the two source files of the repository:

* `src/build.rs` — the build-time host-script preprocessor: a `Searcher`
  (`JSJunkSearcher`) over the UTF-8 bytes of the script, whose spans are fed to
  `str::replace(pattern, " ")`.  The searcher works on BYTE positions
  (`self.pos += 1`) and calls `str::split_at(self.pos)` at every visited
  position; `split_at` aborts (Rust index check) when the position is not a
  character boundary, i.e. when the byte there is a UTF-8 continuation byte
  (`0x80..0xBF`).  We model the haystack as `List Nat` of its UTF-8 bytes and
  model that abort as `none`.

* `src/src/lib.rs` — the `JSObject` handle wrapper, numeric/bool/string/array
  marshaling and `string_from_js`.  The `f64` wire channel is modeled by `ℚ`:
  every finite double is a rational, conversions of 32-bit integers to double
  are exact (53-bit mantissa), and the Rust saturating float-to-int cast is
  truncation toward zero clamped to the target range.  The host side
  (`helper.js`, generated at build time and not part of `src/`) is modeled
  from the spec where needed; such definitions are marked in their doc
  comments.
-/

/-- A UTF-8 continuation byte (`0x80..0xBF`).  `str::split_at(pos)` panics in
Rust exactly when the byte at `pos` is such a byte (a position inside a
multi-byte character). -/
def contB (b : Nat) : Bool := 128 ≤ b && b < 192

/-- The state of the reject-scan loop of `JSJunkSearcher::next`
(`enum JSJunkState`).  The source stores `&haystack[pos..pos]` in
`InLiteral` — the EMPTY slice, modeled faithfully as a `List Nat` payload
(always `[]` at every creation site, mirroring the source). -/
inductive JSJunkState where
  | Normal : JSJunkState
  | InLiteral : List Nat → JSJunkState
deriving DecidableEq, Repr

/-- Result of the reject-scan loop: either the loop executed `break` after
consuming `k` bytes (`brk k`), or it ran off the end of the haystack in the
given state (`eof`). -/
inductive ScanRes where
  | brk : Nat → ScanRes
  | eof : JSJunkState → ScanRes
deriving DecidableEq, Repr

/-- The byte following the current position: head of the rest of the current
list, falling back to the first byte of the continuation `la` (used to reason
about scanning a prefix of a longer list). -/
def headOr : List Nat → Option Nat → Option Nat
  | [], la => la
  | b :: _, _ => some b

/-- Shift a `brk` offset by one consumed byte. -/
def bump1 : ScanRes → ScanRes
  | ScanRes.brk k => ScanRes.brk (k + 1)
  | ScanRes.eof st => ScanRes.eof st

/-- The `else` (reject) loop of `JSJunkSearcher::next` (src/build.rs lines
54-78), scanning bytes from the current position.  Per iteration the source
evaluates `split_at(pos)` (boundary check — `none` on a continuation byte),
then in state `Normal` enters `InLiteral` on a quote byte (39 or 34),
breaks when the remaining text starts with `//`, `/*` or a newline, and
otherwise advances; in state `InLiteral c` it returns to `Normal` when the
remaining text starts with `c` (`c` is the empty slice in the source, so this
always fires after one character).  `la` supplies the lookahead byte past the
end of the scanned list for the two-byte `//` and `/*` tests. -/
def rejectScan : JSJunkState → List Nat → Option Nat → Option ScanRes
  | st, [], _ => some (ScanRes.eof st)
  | st, b :: rest, la =>
    if contB b then none
    else
      match st with
      | JSJunkState.Normal =>
        if b = 39 ∨ b = 34 then
          (rejectScan (JSJunkState.InLiteral []) rest la).map bump1
        else if (b = 47 ∧ headOr rest la = some 47) ∨
                (b = 47 ∧ headOr rest la = some 42) ∨ b = 10 then
          some (ScanRes.brk 0)
        else
          (rejectScan JSJunkState.Normal rest la).map bump1
      | JSJunkState.InLiteral c =>
        if c.isPrefixOf (b :: rest) then
          (rejectScan JSJunkState.Normal rest la).map bump1
        else
          (rejectScan (JSJunkState.InLiteral c) rest la).map bump1

/-- The line-comment loop of `JSJunkSearcher::next` (src/build.rs lines
40-43): advance while the position is in bounds and the remaining text does
not start with a newline, checking the byte at each position (`split_at`).
Returns the number of bytes consumed, `none` on a boundary violation. -/
def lineCommentLen : List Nat → Option Nat
  | [] => some 0
  | b :: rest =>
    if contB b then none
    else if b = 10 then some 0
    else (lineCommentLen rest).map (· + 1)

/-- The block-comment loop of `JSJunkSearcher::next` (src/build.rs lines
47-51): advance while the position is in bounds and the remaining text does
not start with the closing marker `*/` (bytes 42 47); the marker itself is
NOT consumed (the loop breaks before it, and the source never skips it).
Returns the number of bytes consumed, `none` on a boundary violation. -/
def blockCommentLen : List Nat → Option Nat
  | [] => some 0
  | b :: rest =>
    if contB b then none
    else if b = 42 ∧ rest.head? = some 47 then some 0
    else (blockCommentLen rest).map (· + 1)

/-- Map the output of a recursive driver call, preserving fuel exhaustion
(outer `none`) and the modeled abort (`some none`). -/
def mapOut (g : List Nat → List Nat) : Option (Option (List Nat)) → Option (Option (List Nat))
  | none => none
  | some none => some none
  | some (some o) => some (some (g o))

/-- One full run of `"...".replace(JSJunkPattern {}, " ")` over the remaining
bytes: repeatedly call `JSJunkSearcher::next` (src/build.rs lines 25-79) and
emit a single space (byte 32) for every `Match` span (newline, line comment,
block comment) and the span itself for every `Reject` span.  `next` first
returns `Done` past the end, otherwise evaluates `split_at(pos)` (boundary
check), then tests the prefixes `"\n"`, `"//"`, `"/*"` in that order and
falls through to the reject loop.  The `fuel` argument is only a structural
recursion bound; every step consumes at least one byte, so fuel above the
list length never runs out (`jsRunF_progress`).  Outer `none` = fuel ran out,
`some none` = the Rust code aborts (non-boundary `split_at`),
`some (some o)` = it returns output `o`. -/
def jsRunF : Nat → List Nat → Option (Option (List Nat))
  | 0, _ => none
  | _ + 1, [] => some (some [])
  | f + 1, b :: rest =>
    if contB b then some none
    else if b = 10 then
      mapOut (fun o => 32 :: o) (jsRunF f rest)
    else if b = 47 ∧ rest.head? = some 47 then
      match lineCommentLen (b :: rest) with
      | none => some none
      | some k => mapOut (fun o => 32 :: o) (jsRunF f ((b :: rest).drop k))
    else if b = 47 ∧ rest.head? = some 42 then
      match blockCommentLen (b :: rest) with
      | none => some none
      | some k => mapOut (fun o => 32 :: o) (jsRunF f ((b :: rest).drop k))
    else
      match rejectScan JSJunkState.Normal (b :: rest) none with
      | none => some none
      | some (ScanRes.brk k) =>
          mapOut (fun o => (b :: rest).take k ++ o) (jsRunF f ((b :: rest).drop k))
      | some (ScanRes.eof _) => some (some (b :: rest))

/-- The preprocessing of the host script performed by `main` in src/build.rs:
`include_str!("src/helper.js").replace(JSJunkPattern {}, " ")`, over the
UTF-8 bytes of the script.  `none` = the Rust program panics (see `jsRunF`;
`jsRunF_progress` shows the fuel value `length + 1` never runs out, so `none`
can only arise from the modeled `split_at` abort). -/
def jsJunkReplace (bs : List Nat) : Option (List Nat) :=
  (jsRunF (bs.length + 1) bs).getD none

/-- Shift a `brk` offset by `n` consumed bytes (offset bookkeeping when a
scan is split across an append). -/
def shiftRes (n : Nat) : Option ScanRes → Option ScanRes
  | none => none
  | some (ScanRes.brk k) => some (ScanRes.brk (k + n))
  | some (ScanRes.eof st) => some (ScanRes.eof st)

/-- Continue a split scan: given the outcome of scanning a prefix of length
`n`, either propagate its abort or break, or go on scanning `ys` from the
final state, shifting break offsets past the prefix. -/
def contScan (ys : List Nat) (la : Option Nat) (n : Nat) : Option ScanRes → Option ScanRes
  | none => none
  | some (ScanRes.brk k) => some (ScanRes.brk k)
  | some (ScanRes.eof st) => shiftRes n (rejectScan st ys la)

/-- The states the reject scan actually reaches: `Normal`, or `InLiteral`
with the empty payload the source stores. -/
def stOk (st : JSJunkState) : Prop :=
  st = JSJunkState.Normal ∨ st = JSJunkState.InLiteral []

/-- The head of the list does not begin a match span of the searcher: it is
on a character boundary, is not a newline, and does not start `//` or `/*`
(an empty list trivially qualifies). -/
def headGuards : List Nat → Prop
  | [] => True
  | b :: rest =>
    contB b = false ∧ b ≠ 10 ∧
    ¬(b = 47 ∧ rest.head? = some 47) ∧ ¬(b = 47 ∧ rest.head? = some 42)

/-- A list the whole of which the searcher emits as one reject span: its head
starts no match, and the reject scan runs from `Normal` to end of input
without breaking or aborting.  Preprocessing leaves such a list unchanged
(`strongInert_fixed`), and every preprocessor output is such a list
(`jsRunF_strongInert`). -/
def StrongInert (o : List Nat) : Prop :=
  headGuards o ∧
    (o = [] ∨ ∃ st, rejectScan JSJunkState.Normal o none = some (ScanRes.eof st))

/-- Whether the two bytes of the closing block-comment marker `*/` occur
adjacently anywhere in the list. -/
def hasStarSlash : List Nat → Bool
  | a :: b :: rest => (a == 42 && b == 47) || hasStarSlash (b :: rest)
  | _ => false

/-!
## The `lib.rs` model: string transfer
-/

/-- `String::from_utf16_lossy`: decode a sequence of 16-bit code units to code
points; a high surrogate (`0xD800..0xDBFF`) followed by a low surrogate
(`0xDC00..0xDFFF`) combines into a supplementary code point, any unpaired
surrogate becomes the replacement character `0xFFFD`, and decoding never
fails. -/
def utf16LossyDecode : List Nat → List Nat
  | [] => []
  | [u] => if u < 0xD800 ∨ 0xE000 ≤ u then [u] else [0xFFFD]
  | u :: v :: rest =>
    if u < 0xD800 ∨ 0xE000 ≤ u then u :: utf16LossyDecode (v :: rest)
    else if u < 0xDC00 then
      if 0xDC00 ≤ v ∧ v < 0xE000 then
        (0x10000 + (u - 0xD800) * 0x400 + (v - 0xDC00)) :: utf16LossyDecode rest
      else 0xFFFD :: utf16LossyDecode (v :: rest)
    else 0xFFFD :: utf16LossyDecode (v :: rest)

/-- `string_from_js` (src/src/lib.rs lines 132-140), applied to the contents
of the transfer buffer viewed as the list of 16-bit words starting at the
pointer.  The source reads the 4-byte little-endian length `size` at the
pointer (the first two 16-bit words, low word first, on the little-endian
emscripten targets), then builds the slice
`std::slice::from_raw_parts(ptr, size)` — `size` words starting AT the
pointer, i.e. beginning with the two length-prefix words — decodes it with
`String::from_utf16_lossy`, and calls `free` on the pointer once.  Result:
(decoded code points, number of `free` calls). -/
def string_from_js (mem : List Nat) : List Nat × Nat :=
  let size := mem.headD 0 + 65536 * (mem.drop 1).headD 0
  (utf16LossyDecode (mem.take size), 1)

/-- Modelled from the spec: the buffer layout produced by the host helper
`HELPERJS.copyStringToHeap` (generated `helper.js`, not under src/), as
documented in src/src/lib.rs lines 41-43 and spec section 4.3: a 4-byte
little-endian count of 16-bit code units, followed by that many 16-bit code
units.  In 16-bit words: low length word, high length word, then the units. -/
def copyStringToHeapBuffer (units : List Nat) : List Nat :=
  units.length % 65536 :: units.length / 65536 :: units

/-!
## The `lib.rs` model: `JSObject`, marshaling, reference counting

The `f64` payload channel is modeled by `ℚ`: every finite IEEE-754 double is
a (dyadic) rational, and all conversions the claims exercise are exact on the
values involved (integers of magnitude below `2 ^ 53`, and `f32` values,
which embed exactly into `f64`).  The shared `Rc<()>` counter is modeled
separately (`RcState`): all clones of a wrapper are interchangeable, so a
destruction order is determined by how many of them have been dropped. -/
structure JSObject where
  value : ℚ
  jshandle : Bool
deriving DecidableEq, Repr

/-- Boundary calls into the host that the claims observe (`HELPERJS`
helpers invoked through the `js!` macro family). -/
inductive BCall where
  | storeArr : BCall
  | load : ℚ → BCall
  | release : ℚ → BCall
  | pushRaw : ℚ → ℚ → BCall
  | pushLoaded : ℚ → ℚ → BCall
deriving DecidableEq, Repr

/-- Truncation toward zero, the integral part of the Rust float-to-integer
`as` cast. -/
def ratTrunc (q : ℚ) : ℤ := if 0 ≤ q then ⌊q⌋ else ⌈q⌉

/-- The Rust saturating float-to-integer cast `value as $type` for an integer
type with range `lo..hi`: truncate toward zero and clamp to the range.  (On a
NaN the cast yields 0; `ℚ` models only the non-NaN doubles.) -/
def satCast (lo hi : ℤ) (q : ℚ) : ℤ := min hi (max lo (ratTrunc q))

/-- `impl From<$type> for JSObject` generated by `__js_from_numeric!`
(src/src/lib.rs lines 410-418): `value = v as f64`, `jshandle = false`, and
no boundary call.  Exact for every integer type of the 32-bit
emscripten targets, since `2 ^ 32 < 2 ^ 53`. -/
def js_from_int (v : ℤ) : JSObject × List BCall :=
  (⟨(v : ℚ), false⟩, [])

/-- `impl From<JSObject> for $type` generated by `__js_from_numeric!`
(src/src/lib.rs lines 420-429) for the integer type with range `lo..hi`: if
`jshandle` is set, run the boundary script `return HELPERJS.loadObject($0);`
(result supplied by the `host` oracle) and cast the returned double;
otherwise cast `obj.value` directly with no boundary call. -/
def int_from_js (lo hi : ℤ) (host : ℚ → ℚ) (obj : JSObject) : ℤ × List BCall :=
  if obj.jshandle then (satCast lo hi (host obj.value), [BCall.load obj.value])
  else (satCast lo hi obj.value, [])

/-- `From<f64> for JSObject`: `v as f64` is the identity. -/
def js_from_f64 (q : ℚ) : JSObject × List BCall :=
  (⟨q, false⟩, [])

/-- `From<JSObject> for f64`: the non-handle branch returns `obj.value as
f64`, the identity; the handle branch queries the host. -/
def f64_from_js (host : ℚ → ℚ) (obj : JSObject) : ℚ × List BCall :=
  if obj.jshandle then (host obj.value, [BCall.load obj.value])
  else (obj.value, [])

/-- Round a rational to 24 binary digits of precision with exponent floored
at the `f32` subnormal scale `2 ^ (-149)`: the `as f32` narrowing cast of a
finite double, modeled on `ℚ`.  On every value that is exactly representable
in `f32` this is the identity (`roundF32_eq_self`); elsewhere it rounds to a
nearest representable value (overflow to infinity is outside the model, and
the claims never exercise it). -/
def roundF32 (q : ℚ) : ℚ :=
  if q = 0 then 0
  else
    ((round (q * (2 : ℚ) ^ (-(max (Int.log 2 |q| - 23) (-149)))) : ℤ) : ℚ) *
      (2 : ℚ) ^ (max (Int.log 2 |q| - 23) (-149))

/-- The finite values exactly representable in IEEE-754 binary32: zero, or
`m * 2 ^ e` with a 24-bit significand and the `f32` exponent range. -/
def IsF32 (q : ℚ) : Prop :=
  q = 0 ∨ ∃ m e : ℤ, q = (m : ℚ) * (2 : ℚ) ^ e ∧ m.natAbs < 2 ^ 24 ∧ -149 ≤ e ∧ e ≤ 104

/-- `From<f32> for JSObject`: `v as f64` widens exactly (every `f32` value is
a `f64` value), so on the `ℚ` channel it is the identity; `jshandle = false`,
no boundary call. -/
def js_from_f32 (q : ℚ) : JSObject × List BCall :=
  (⟨q, false⟩, [])

/-- `From<JSObject> for f32`: the non-handle branch is `obj.value as f32`
(narrowing, `roundF32`); the handle branch queries the host and narrows. -/
def f32_from_js (host : ℚ → ℚ) (obj : JSObject) : ℚ × List BCall :=
  if obj.jshandle then (roundF32 (host obj.value), [BCall.load obj.value])
  else (roundF32 obj.value, [])

/-- `impl From<bool> for JSObject` (src/src/lib.rs lines 472-480): payload 1.0
for `true`, 0.0 for `false`; `jshandle = false`, no boundary call. -/
def js_from_bool (b : Bool) : JSObject × List BCall :=
  (⟨if b then 1 else 0, false⟩, [])

/-- `impl From<JSObject> for bool` (src/src/lib.rs lines 482-491): the handle
branch runs `js_int!("return HELPERJS.loadObject($0);")` (the returned double
cast to a 32-bit int) and compares with 0; the non-handle branch is
`obj.value != 0f64` with no boundary call. -/
def bool_from_js (host : ℚ → ℚ) (obj : JSObject) : Bool × List BCall :=
  if obj.jshandle then
    (decide (satCast (-(2 ^ 31)) (2 ^ 31 - 1) (host obj.value) ≠ 0), [BCall.load obj.value])
  else (decide (obj.value ≠ 0), [])

/-- The shared `Rc<()>` counter group of one `JSObject` and its clones,
together with the number of `HELPERJS.releaseObject` boundary calls issued so
far.  All clones share the group, so its evolution depends only on how many
of them have been dropped, not on which. -/
structure RcState where
  count : Nat
  releases : Nat
deriving DecidableEq, Repr

/-- A freshly constructed wrapper: a new `Rc::new(())` group with strong
count 1 and no release issued. -/
def freshRc : RcState := ⟨1, 0⟩

/-- `Clone` on a `JSObject` clones the `Rc`, incrementing the strong count of
the group; no boundary call. -/
def cloneJSObject (s : RcState) : RcState := ⟨s.count + 1, s.releases⟩

/-- `impl Drop for JSObject` (src/src/lib.rs lines 371-382): the drop glue
first runs the body — which issues `HELPERJS.releaseObject(value)` exactly
when `jshandle` is set and `Rc::strong_count == 1` (the dying wrapper is the
last member of the group) — and then drops the `Rc` field, decrementing the
count. -/
def dropJSObject (jshandle : Bool) (s : RcState) : RcState :=
  ⟨s.count - 1, s.releases + if jshandle = true ∧ s.count = 1 then 1 else 0⟩

/-- A host-side value as far as array marshaling observes it: either a raw
number pushed directly, or the object-table entry loaded from a handle. -/
inductive HVal where
  | num : ℚ → HVal
  | loaded : ℚ → HVal
deriving DecidableEq, Repr

/-- The push boundary call emitted for one element by the loop body of
`impl From<Vec<T>> for JSObject` (src/src/lib.rs lines 388-402): the snippet
`HELPERJS.loadObject($0).push(HELPERJS.loadObject($1))` when the converted
element is handle-backed, `HELPERJS.loadObject($0).push($1)` otherwise. -/
def pushCallFor (arrH : ℚ) (e : JSObject) : BCall :=
  if e.jshandle then BCall.pushLoaded arrH e.value else BCall.pushRaw arrH e.value

/-- The `for elem in v` loop of `impl From<Vec<T>> for JSObject`: convert
each element in order with `f` (the applicable `From` instance) and issue its
push boundary call. -/
def pushLoop (f : α → JSObject) (arrH : ℚ) : List α → List BCall
  | [] => []
  | x :: xs => pushCallFor arrH (f x) :: pushLoop f arrH xs

/-- `impl From<Vec<T>> for JSObject` (src/src/lib.rs lines 384-405): first a
host expression stores a fresh empty array (modelled from the spec: the
`js_obj!` boundary call returns its table handle `arrH`), then the loop
pushes every element in input order; the array wrapper (handle-backed) is
returned.  Result: (wrapper, boundary calls in program order). -/
def js_from_vec (f : α → JSObject) (arrH : ℚ) (v : List α) : JSObject × List BCall :=
  (⟨arrH, true⟩, BCall.storeArr :: pushLoop f arrH v)

/-- Modelled from the spec: the effect of one push boundary call on the host
array stored at the table slot the calls address (helper.js is generated, not
under src/; spec section 4.2: push either the raw value of the element or
`load(elementHandle)` onto the host array).  `table` resolves
`HELPERJS.loadObject` for element handles.  Calls other than a push on this
array leave it unchanged. -/
def applyPush (table : ℚ → HVal) (arrSt : List HVal) : BCall → List HVal
  | BCall.pushRaw _ v => arrSt ++ [HVal.num v]
  | BCall.pushLoaded _ h => arrSt ++ [table h]
  | _ => arrSt

/-- The host array contents after interpreting a list of boundary calls,
starting from the fresh empty array. -/
def hostArray (table : ℚ → HVal) (calls : List BCall) : List HVal :=
  calls.foldl (applyPush table) []

/-- The host value a single converted element contributes to the array. -/
def elemHostVal (table : ℚ → HVal) (e : JSObject) : HVal :=
  if e.jshandle then table e.value else HVal.num e.value

/-!
## Theorems

First the marshaling claims (C1-C4), then the preprocessor claims (C5-C10).
-/

theorem dropJSObject_false_releases (s : RcState) :
    (dropJSObject false s).releases = s.releases := by
  simp [dropJSObject]

theorem cloneJSObject_iterate (N : Nat) :
    cloneJSObject^[N] freshRc = ⟨N + 1, 0⟩ := by
  induction N with
  | zero => rfl
  | succ n ih => rw [Function.iterate_succ_apply', ih]; rfl

theorem dropJSObject_iterate (jh : Bool) (k c r : Nat) (hk : k ≤ c) :
    (dropJSObject jh)^[k] ⟨c, r⟩ =
      ⟨c - k, r + if jh = true ∧ k = c ∧ 1 ≤ k then 1 else 0⟩ := by
  induction k generalizing c r with
  | zero => simp
  | succ n ih =>
    rw [Function.iterate_succ_apply]
    show (dropJSObject jh)^[n] ⟨c - 1, r + _⟩ = _
    rw [ih (c - 1) _ (by omega)]
    simp only [RcState.mk.injEq]
    refine ⟨by omega, ?_⟩
    rcases jh with _ | _
    · simp
    · simp only [true_and]
      split_ifs <;> omega

/-- C1: the native decode step `string_from_js` is claimed to read the 4-byte
length `L` at the pointer and then decode exactly the `L` code units
FOLLOWING the prefix.  The code instead builds the decoded slice starting AT
the pointer, so the two 16-bit prefix words are decoded as text and the last
two payload units are never read, contradicting the buffer layout documented
in the crate itself (src/src/lib.rs lines 41-43).  Evaluated at the host
buffer for the three units 65 66 67 ("ABC"): the code yields the code points
[3, 0, 65] instead of [65, 66, 67]; the buffer is freed once. -/
theorem c1_string_from_js_code_bug :
    string_from_js (copyStringToHeapBuffer [65, 66, 67]) = ([3, 0, 65], 1) ∧
    utf16LossyDecode [65, 66, 67] = [65, 66, 67] ∧
    ([3, 0, 65] : List Nat) ≠ [65, 66, 67] := by
  decide

/-- C2: destruction issues `release` exactly when the wrapper is handle-backed
and is the last member of its counter group.  Starting from a fresh wrapper
cloned `N` times (count `N + 1`), after `k ≤ N + 1` of the copies have been
dropped — clones are interchangeable, so any destruction order is determined
by `k` — the number of `releaseObject` calls is 1 exactly when the wrapper is
handle-backed and `k = N + 1` (the last copy has just died), and 0 otherwise;
a primitive-backed wrapper never releases, whatever `k`. -/
theorem c2_release_exactly_once :
    (∀ (jh : Bool) (N k : Nat), k ≤ N + 1 →
      ((dropJSObject jh)^[k] (cloneJSObject^[N] freshRc)).releases =
        if jh = true ∧ k = N + 1 then 1 else 0) ∧
    (∀ N k : Nat, ((dropJSObject false)^[k] (cloneJSObject^[N] freshRc)).releases = 0) := by
  constructor
  · intro jh N k hk
    rw [cloneJSObject_iterate, dropJSObject_iterate jh k (N + 1) 0 hk]
    rcases jh with _ | _
    · simp
    · simp only [true_and]
      split_ifs <;> omega
  · intro N k
    induction k with
    | zero => rw [Function.iterate_zero_apply, cloneJSObject_iterate]
    | succ n ih =>
      rw [Function.iterate_succ_apply', dropJSObject_false_releases]
      exact ih

theorem c2_witness :
    (3 : Nat) ≤ 2 + 1 ∧
    ((dropJSObject true)^[3] (cloneJSObject^[2] freshRc)).releases = 1 ∧
    ((dropJSObject true)^[2] (cloneJSObject^[2] freshRc)).releases = 0 := by
  refine ⟨by decide, ?_, ?_⟩
  · have h := c2_release_exactly_once.1 true 2 3 (by decide)
    simpa using h
  · have h := c2_release_exactly_once.1 true 2 2 (by decide)
    simpa using h

theorem pushLoop_eq_map (f : α → JSObject) (arrH : ℚ) (v : List α) :
    pushLoop f arrH v = v.map (fun x => pushCallFor arrH (f x)) := by
  induction v with
  | nil => rfl
  | cons x xs ih => simp [pushLoop, ih]

theorem pushLoop_foldl (table : ℚ → HVal) (f : α → JSObject) (arrH : ℚ)
    (v : List α) (acc : List HVal) :
    (pushLoop f arrH v).foldl (applyPush table) acc =
      acc ++ v.map (fun x => elemHostVal table (f x)) := by
  induction v generalizing acc with
  | nil => simp [pushLoop]
  | cons x xs ih =>
    rw [pushLoop, List.foldl_cons, ih]
    have : applyPush table acc (pushCallFor arrH (f x)) =
        acc ++ [elemHostVal table (f x)] := by
      rcases hfx : (f x).jshandle with _ | _ <;>
        simp [pushCallFor, applyPush, elemHostVal, hfx]
    rw [this]
    simp

/-- C4: array construction issues one push boundary call per element, in
exactly the input order (the emitted call list is the element-wise map of the
input, after the initial store of the fresh array), and interpreting those
calls on the host side yields an array whose elements are the converted
inputs in input order and whose length is the input length. -/
theorem c4_array_order (α : Type) (f : α → JSObject) (arrH : ℚ) (v : List α)
    (table : ℚ → HVal) :
    (js_from_vec f arrH v).2 =
      BCall.storeArr :: v.map (fun x => pushCallFor arrH (f x)) ∧
    hostArray table (js_from_vec f arrH v).2 =
      v.map (fun x => elemHostVal table (f x)) ∧
    (hostArray table (js_from_vec f arrH v).2).length = v.length := by
  refine ⟨by simp [js_from_vec, pushLoop_eq_map], ?_, ?_⟩
  · rw [js_from_vec]
    show (BCall.storeArr :: pushLoop f arrH v).foldl (applyPush table) [] = _
    rw [List.foldl_cons]
    show (pushLoop f arrH v).foldl (applyPush table) [] = _
    rw [pushLoop_foldl]
    simp
  · rw [js_from_vec]
    show ((BCall.storeArr :: pushLoop f arrH v).foldl (applyPush table) []).length = _
    rw [List.foldl_cons]
    show ((pushLoop f arrH v).foldl (applyPush table) []).length = _
    rw [pushLoop_foldl]
    simp

theorem ratTrunc_intCast (v : ℤ) : ratTrunc ((v : ℚ)) = v := by
  rw [ratTrunc]
  split_ifs with h
  · exact Int.floor_intCast v
  · exact Int.ceil_intCast v

theorem satCast_intCast (lo hi v : ℤ) (h1 : lo ≤ v) (h2 : v ≤ hi) :
    satCast lo hi ((v : ℚ)) = v := by
  rw [satCast, ratTrunc_intCast]
  omega

theorem int_roundtrip (lo hi : ℤ) (host : ℚ → ℚ) (v : ℤ) (h1 : lo ≤ v) (h2 : v ≤ hi) :
    (int_from_js lo hi host (js_from_int v).1).1 = v ∧
    (js_from_int v).2 ++ (int_from_js lo hi host (js_from_int v).1).2 = [] ∧
    (js_from_int v).1.jshandle = false := by
  refine ⟨?_, rfl, rfl⟩
  show (satCast lo hi ((v : ℚ)), ([] : List BCall)).1 = v
  exact satCast_intCast lo hi v h1 h2

theorem roundF32_eq_self (q : ℚ) (h : IsF32 q) : roundF32 q = q := by
  rcases h with h0 | ⟨m, e, hq, hm, he1, _he2⟩
  · rw [h0, roundF32]; simp
  · by_cases hq0 : q = 0
    · rw [hq0, roundF32]; simp
    · rw [roundF32, if_neg hq0]
      have hmne : (m : ℚ) ≠ 0 := by
        intro hz
        rw [hq, hz, zero_mul] at hq0
        exact hq0 rfl
      have h2q : (0 : ℚ) < 2 := by norm_num
      have hzp : (0 : ℚ) < (2 : ℚ) ^ e := zpow_pos h2q e
      have habs : |q| = |(m : ℚ)| * (2 : ℚ) ^ e := by
        rw [hq, abs_mul, abs_of_pos hzp]
      have habs_lt : |q| < (2 : ℚ) ^ (e + 24) := by
        rw [habs, zpow_add₀ (by norm_num : (2 : ℚ) ≠ 0) e 24]
        have hmq : |(m : ℚ)| < (2 : ℚ) ^ (24 : ℤ) := by
          have : |(m : ℚ)| = ((m.natAbs : ℤ) : ℚ) := by
            rw [← Int.abs_eq_natAbs, Int.cast_abs]
          rw [this]
          have h24 : ((m.natAbs : ℤ) : ℚ) < ((2 ^ 24 : ℤ) : ℚ) := by
            exact_mod_cast hm
          calc ((m.natAbs : ℤ) : ℚ) < ((2 ^ 24 : ℤ) : ℚ) := h24
            _ = (2 : ℚ) ^ (24 : ℤ) := by norm_num
        calc |(m : ℚ)| * (2 : ℚ) ^ e < (2 : ℚ) ^ (24 : ℤ) * (2 : ℚ) ^ e := by
              exact mul_lt_mul_of_pos_right hmq hzp
          _ = (2 : ℚ) ^ e * (2 : ℚ) ^ (24 : ℤ) := by ring
      have hqpos : (0 : ℚ) < |q| := abs_pos.mpr hq0
      have hlow : ((2 : ℕ) : ℚ) ^ Int.log 2 |q| ≤ |q| :=
        Int.zpow_log_le_self (by norm_num) hqpos
      have hlow2 : (2 : ℚ) ^ Int.log 2 |q| ≤ |q| := by
        have : ((2 : ℕ) : ℚ) = (2 : ℚ) := by norm_num
        rw [this] at hlow
        exact hlow
      have hlog_le : Int.log 2 |q| ≤ e + 23 := by
        have hlt : (2 : ℚ) ^ Int.log 2 |q| < (2 : ℚ) ^ (e + 24) :=
          lt_of_le_of_lt hlow2 habs_lt
        have := (zpow_lt_zpow_iff_right₀ (by norm_num : (1 : ℚ) < 2)).mp hlt
        omega
      set E : ℤ := max (Int.log 2 |q| - 23) (-149) with hE
      have heE : E ≤ e := by
        rw [hE]
        apply max_le <;> omega
      have hkey : q * (2 : ℚ) ^ (-E) = ((m * 2 ^ (e - E).toNat : ℤ) : ℚ) := by
        rw [hq, mul_assoc, ← zpow_add₀ (by norm_num : (2 : ℚ) ≠ 0) e (-E)]
        have htn : ((e - E).toNat : ℤ) = e - E := Int.toNat_of_nonneg (by omega)
        push_cast
        rw [← zpow_natCast (2 : ℚ) (e - E).toNat, htn, sub_eq_add_neg]
      rw [hkey, round_intCast, ← hkey]
      rw [mul_assoc, ← zpow_add₀ (by norm_num : (2 : ℚ) ≠ 0) (-E) E]
      simp

/-- C3: converting a primitive of any supported numeric type or `bool` to a
`JSObject` and back reproduces the value exactly, with `jshandle = false` and
an empty boundary-call trace (no `store`, `load` or `release`).  One conjunct
per source type of `__js_from_numeric!(isize, usize, i32, u32, i16, u16, i8,
u8, f32, f64)` plus `bool`; `isize`/`usize` have the 32-bit ranges of the
emscripten targets of the crate, `f32` values are the rationals exactly
representable in binary32, and the `f64` conjunct is the identity cast. -/
theorem c3_primitive_roundtrip :
    (∀ (host : ℚ → ℚ) (v : ℤ), -(2 ^ 31) ≤ v → v ≤ 2 ^ 31 - 1 →
      (int_from_js (-(2 ^ 31)) (2 ^ 31 - 1) host (js_from_int v).1).1 = v ∧
      (js_from_int v).2 ++ (int_from_js (-(2 ^ 31)) (2 ^ 31 - 1) host (js_from_int v).1).2 = [] ∧
      (js_from_int v).1.jshandle = false) ∧
    (∀ (host : ℚ → ℚ) (v : ℤ), 0 ≤ v → v ≤ 2 ^ 32 - 1 →
      (int_from_js 0 (2 ^ 32 - 1) host (js_from_int v).1).1 = v ∧
      (js_from_int v).2 ++ (int_from_js 0 (2 ^ 32 - 1) host (js_from_int v).1).2 = [] ∧
      (js_from_int v).1.jshandle = false) ∧
    (∀ (host : ℚ → ℚ) (v : ℤ), -(2 ^ 15) ≤ v → v ≤ 2 ^ 15 - 1 →
      (int_from_js (-(2 ^ 15)) (2 ^ 15 - 1) host (js_from_int v).1).1 = v ∧
      (js_from_int v).2 ++ (int_from_js (-(2 ^ 15)) (2 ^ 15 - 1) host (js_from_int v).1).2 = [] ∧
      (js_from_int v).1.jshandle = false) ∧
    (∀ (host : ℚ → ℚ) (v : ℤ), 0 ≤ v → v ≤ 2 ^ 16 - 1 →
      (int_from_js 0 (2 ^ 16 - 1) host (js_from_int v).1).1 = v ∧
      (js_from_int v).2 ++ (int_from_js 0 (2 ^ 16 - 1) host (js_from_int v).1).2 = [] ∧
      (js_from_int v).1.jshandle = false) ∧
    (∀ (host : ℚ → ℚ) (v : ℤ), -(2 ^ 7) ≤ v → v ≤ 2 ^ 7 - 1 →
      (int_from_js (-(2 ^ 7)) (2 ^ 7 - 1) host (js_from_int v).1).1 = v ∧
      (js_from_int v).2 ++ (int_from_js (-(2 ^ 7)) (2 ^ 7 - 1) host (js_from_int v).1).2 = [] ∧
      (js_from_int v).1.jshandle = false) ∧
    (∀ (host : ℚ → ℚ) (v : ℤ), 0 ≤ v → v ≤ 2 ^ 8 - 1 →
      (int_from_js 0 (2 ^ 8 - 1) host (js_from_int v).1).1 = v ∧
      (js_from_int v).2 ++ (int_from_js 0 (2 ^ 8 - 1) host (js_from_int v).1).2 = [] ∧
      (js_from_int v).1.jshandle = false) ∧
    (∀ (host : ℚ → ℚ) (q : ℚ), IsF32 q →
      (f32_from_js host (js_from_f32 q).1).1 = q ∧
      (js_from_f32 q).2 ++ (f32_from_js host (js_from_f32 q).1).2 = [] ∧
      (js_from_f32 q).1.jshandle = false) ∧
    (∀ (host : ℚ → ℚ) (q : ℚ),
      (f64_from_js host (js_from_f64 q).1).1 = q ∧
      (js_from_f64 q).2 ++ (f64_from_js host (js_from_f64 q).1).2 = [] ∧
      (js_from_f64 q).1.jshandle = false) ∧
    (∀ (host : ℚ → ℚ) (b : Bool),
      (bool_from_js host (js_from_bool b).1).1 = b ∧
      (js_from_bool b).2 ++ (bool_from_js host (js_from_bool b).1).2 = [] ∧
      (js_from_bool b).1.jshandle = false) := by
  refine ⟨fun host v h1 h2 => int_roundtrip _ _ host v h1 h2,
          fun host v h1 h2 => int_roundtrip _ _ host v h1 h2,
          fun host v h1 h2 => int_roundtrip _ _ host v h1 h2,
          fun host v h1 h2 => int_roundtrip _ _ host v h1 h2,
          fun host v h1 h2 => int_roundtrip _ _ host v h1 h2,
          fun host v h1 h2 => int_roundtrip _ _ host v h1 h2,
          ?_, ?_, ?_⟩
  · intro host q hq
    exact ⟨roundF32_eq_self q hq, rfl, rfl⟩
  · intro host q
    exact ⟨rfl, rfl, rfl⟩
  · intro host b
    refine ⟨?_, rfl, rfl⟩
    rcases b with _ | _ <;> simp [bool_from_js, js_from_bool]

theorem c3_witness :
    (-(2 ^ 31) : ℤ) ≤ 5 ∧ (5 : ℤ) ≤ 2 ^ 31 - 1 ∧
    (int_from_js (-(2 ^ 31)) (2 ^ 31 - 1) id (js_from_int 5).1).1 = 5 ∧
    IsF32 1 ∧
    (f32_from_js id (js_from_f32 1).1).1 = 1 ∧
    (f64_from_js id (js_from_f64 (3 / 2)).1).1 = 3 / 2 ∧
    (bool_from_js id (js_from_bool true).1).1 = true := by
  have hf32 : IsF32 1 :=
    Or.inr ⟨2 ^ 23, -23, by norm_num, by norm_num, by norm_num, by norm_num⟩
  refine ⟨by norm_num, by norm_num,
          (c3_primitive_roundtrip.1 id 5 (by norm_num) (by norm_num)).1,
          hf32,
          ((c3_primitive_roundtrip.2.2.2.2.2.2.1) id 1 hf32).1,
          ((c3_primitive_roundtrip.2.2.2.2.2.2.2.1) id (3 / 2)).1,
          ((c3_primitive_roundtrip.2.2.2.2.2.2.2.2) id true).1⟩

/-- C5: the spec claims characters between a quote character and the next
occurrence of the same quote character are copied verbatim.  The source
stores `&haystack[pos..pos]` — the EMPTY slice — instead of the quote
character in `InLiteral`, so the literal state ends after a single character
and comment markers inside string literals are NOT protected.  Evaluated at
the example given in the spec, the bytes of a single-quoted "it is // not a
comment" followed by a newline: the code deletes everything from the `//` on
(output bytes of "it is" prefix inside the opening quote plus three spaces),
instead of the claimed output that keeps the literal intact and only turns
the trailing newline into a space. -/
theorem c5_literal_not_protected :
    jsJunkReplace
      [39, 105, 116, 32, 105, 115, 32, 47, 47, 32, 110, 111, 116, 32, 97, 32,
       99, 111, 109, 109, 101, 110, 116, 39, 10] =
      some [39, 105, 116, 32, 105, 115, 32, 32, 32] ∧
    some [39, 105, 116, 32, 105, 115, 32, 32, 32] ≠
      some [39, 105, 116, 32, 105, 115, 32, 47, 47, 32, 110, 111, 116, 32, 97, 32,
            99, 111, 109, 109, 101, 110, 116, 39, 32] := by
  decide

/-- C6: the spec claims a block comment is replaced including its closing
marker.  The block-comment loop of the source breaks when the remaining text
starts with the marker, without ever consuming it, so the two marker bytes
survive into the output as part of the next reject span.  Evaluated at the
bytes of "a/*b*/c": the code produces the bytes of "a */c" — the closing
marker appears in the output — not the claimed "a c". -/
theorem c6_block_marker_survives :
    jsJunkReplace [97, 47, 42, 98, 42, 47, 99] = some [97, 32, 42, 47, 99] ∧
    some [97, 32, 42, 47, 99] ≠ some [97, 32, 99] := by
  decide

/-- C8 counterexample: on the bytes of "/*abc" — a block comment that is
still open when the lexer reaches end of input — the preprocessor does NOT
fail: it produces the output consisting of a single space, refuting the
claim that an unterminated construct is a fatal build-time error reported
instead of producing output. -/
theorem c8_counterexample :
    jsJunkReplace [47, 42, 97, 98, 99] = some [32] := by
  decide

/-- C9: preprocessing the bytes of "foo // bar\nbaz" yields exactly the bytes
of "foo   baz": the line comment and the newline are each replaced by a
single space. -/
theorem c9_line_comment_example :
    jsJunkReplace [102, 111, 111, 32, 47, 47, 32, 98, 97, 114, 10, 98, 97, 122] =
      some [102, 111, 111, 32, 32, 32, 98, 97, 122] := by
  decide

/-- C10 counterexample: on the two UTF-8 bytes of the letter e-acute (a
two-byte character), the searcher advances one byte into the character and
the next `split_at` is off a character boundary, so the Rust program panics
(modeled as `none`): the preprocessor is NOT total on inputs with multi-byte
characters. -/
theorem c10_counterexample :
    jsJunkReplace [195, 169] = none := by
  decide

theorem headOr_none (l : List Nat) : headOr l none = l.head? := by
  cases l <;> rfl

theorem headOr_append (xs ys : List Nat) (la : Option Nat) :
    headOr (xs ++ ys) la = headOr xs (headOr ys la) := by
  cases xs <;> cases ys <;> rfl

theorem map_bump1_eq_brk {x : Option ScanRes} {k : Nat}
    (h : x.map bump1 = some (ScanRes.brk k)) :
    ∃ k', x = some (ScanRes.brk k') ∧ k = k' + 1 := by
  rcases x with _ | r
  · simp at h
  · rcases r with k' | st
    · refine ⟨k', rfl, ?_⟩
      simp [bump1] at h
      omega
    · simp [bump1] at h

theorem map_bump1_eq_eof {x : Option ScanRes} {st : JSJunkState}
    (h : x.map bump1 = some (ScanRes.eof st)) : x = some (ScanRes.eof st) := by
  rcases x with _ | r
  · simp at h
  · rcases r with k' | st'
    · simp [bump1] at h
    · simp [bump1] at h
      rw [h]

theorem mapOut_eq_some {g : List Nat → List Nat} {x : Option (Option (List Nat))}
    {o : List Nat} (h : mapOut g x = some (some o)) :
    ∃ o₀, x = some (some o₀) ∧ o = g o₀ := by
  rcases x with _ | (_ | o₀)
  · simp [mapOut] at h
  · simp [mapOut] at h
  · refine ⟨o₀, rfl, ?_⟩
    simp [mapOut] at h
    exact h.symm

theorem mapOut_ne_none {g : List Nat → List Nat} {x : Option (Option (List Nat))}
    (h : x ≠ none) : mapOut g x ≠ none := by
  rcases x with _ | (_ | o₀)
  · exact absurd rfl h
  · simp [mapOut]
  · simp [mapOut]

theorem mapOut_some_some (g : List Nat → List Nat) (o : List Nat) :
    mapOut g (some (some o)) = some (some (g o)) := rfl

theorem rejectScan_normal_cons (b : Nat) (rest : List Nat) (la : Option Nat) :
    rejectScan JSJunkState.Normal (b :: rest) la =
      if contB b then none
      else if b = 39 ∨ b = 34 then
        (rejectScan (JSJunkState.InLiteral []) rest la).map bump1
      else if (b = 47 ∧ headOr rest la = some 47) ∨
              (b = 47 ∧ headOr rest la = some 42) ∨ b = 10 then
        some (ScanRes.brk 0)
      else (rejectScan JSJunkState.Normal rest la).map bump1 := rfl

theorem rejectScan_inlit_cons (c : List Nat) (b : Nat) (rest : List Nat) (la : Option Nat) :
    rejectScan (JSJunkState.InLiteral c) (b :: rest) la =
      if contB b then none
      else if c.isPrefixOf (b :: rest) then
        (rejectScan JSJunkState.Normal rest la).map bump1
      else (rejectScan (JSJunkState.InLiteral c) rest la).map bump1 := rfl

theorem lineCommentLen_cons_pos {b : Nat} {rest : List Nat} {k : Nat}
    (hb : b ≠ 10) (h : lineCommentLen (b :: rest) = some k) : 1 ≤ k := by
  by_cases hc : contB b
  · rw [lineCommentLen, if_pos hc] at h
    exact absurd h (by simp)
  · rw [lineCommentLen, if_neg hc, if_neg hb] at h
    obtain ⟨k', _, hk'⟩ := Option.map_eq_some'.mp h
    omega

theorem blockCommentLen_cons_pos {b : Nat} {rest : List Nat} {k : Nat}
    (hb : b ≠ 42) (h : blockCommentLen (b :: rest) = some k) : 1 ≤ k := by
  by_cases hc : contB b
  · rw [blockCommentLen, if_pos hc] at h
    exact absurd h (by simp)
  · have h2 : ¬(b = 42 ∧ rest.head? = some 47) := fun hx => hb hx.1
    rw [blockCommentLen, if_neg hc, if_neg h2] at h
    obtain ⟨k', _, hk'⟩ := Option.map_eq_some'.mp h
    omega

theorem rejectScan_cons_brk_pos {b : Nat} {rest : List Nat} {k : Nat}
    (h10 : b ≠ 10)
    (h47 : ¬(b = 47 ∧ rest.head? = some 47))
    (h42 : ¬(b = 47 ∧ rest.head? = some 42))
    (h : rejectScan JSJunkState.Normal (b :: rest) none = some (ScanRes.brk k)) :
    1 ≤ k := by
  by_cases hc : contB b
  · rw [rejectScan_normal_cons, if_pos hc] at h
    exact absurd h (by simp)
  · rw [rejectScan_normal_cons, if_neg hc] at h
    by_cases hq : b = 39 ∨ b = 34
    · rw [if_pos hq] at h
      obtain ⟨k', _, hk⟩ := map_bump1_eq_brk h
      omega
    · rw [if_neg hq] at h
      have hbrk : ¬((b = 47 ∧ headOr rest none = some 47) ∨
          (b = 47 ∧ headOr rest none = some 42) ∨ b = 10) := by
        rw [headOr_none]
        intro hx
        rcases hx with hx | hx | hx
        · exact h47 hx
        · exact h42 hx
        · exact h10 hx
      rw [if_neg hbrk] at h
      obtain ⟨k', _, hk⟩ := map_bump1_eq_brk h
      omega

theorem jsRunF_succ_cons (f : Nat) (b : Nat) (rest : List Nat) :
    jsRunF (f + 1) (b :: rest) =
      if contB b then some none
      else if b = 10 then mapOut (fun o => 32 :: o) (jsRunF f rest)
      else if b = 47 ∧ rest.head? = some 47 then
        match lineCommentLen (b :: rest) with
        | none => some none
        | some k => mapOut (fun o => 32 :: o) (jsRunF f ((b :: rest).drop k))
      else if b = 47 ∧ rest.head? = some 42 then
        match blockCommentLen (b :: rest) with
        | none => some none
        | some k => mapOut (fun o => 32 :: o) (jsRunF f ((b :: rest).drop k))
      else
        match rejectScan JSJunkState.Normal (b :: rest) none with
        | none => some none
        | some (ScanRes.brk k) =>
            mapOut (fun o => (b :: rest).take k ++ o) (jsRunF f ((b :: rest).drop k))
        | some (ScanRes.eof _) => some (some (b :: rest)) := rfl

theorem rejectScan_brk_lt (l : List Nat) :
    ∀ (st : JSJunkState) (la : Option Nat) (k : Nat),
      rejectScan st l la = some (ScanRes.brk k) → k < l.length := by
  induction l with
  | nil =>
    intro st la k h
    simp [rejectScan] at h
  | cons b rest ih =>
    intro st la k h
    rcases st with _ | c
    · rw [rejectScan_normal_cons] at h
      by_cases hc : contB b
      · rw [if_pos hc] at h; exact absurd h (by simp)
      · rw [if_neg hc] at h
        by_cases hq : b = 39 ∨ b = 34
        · rw [if_pos hq] at h
          obtain ⟨k', hk', rfl⟩ := map_bump1_eq_brk h
          have := ih _ _ _ hk'
          simp only [List.length_cons]
          omega
        · rw [if_neg hq] at h
          by_cases hbrk : (b = 47 ∧ headOr rest la = some 47) ∨
              (b = 47 ∧ headOr rest la = some 42) ∨ b = 10
          · rw [if_pos hbrk] at h
            simp only [Option.some.injEq, ScanRes.brk.injEq] at h
            simp only [List.length_cons]
            omega
          · rw [if_neg hbrk] at h
            obtain ⟨k', hk', rfl⟩ := map_bump1_eq_brk h
            have := ih _ _ _ hk'
            simp only [List.length_cons]
            omega
    · rw [rejectScan_inlit_cons] at h
      by_cases hc : contB b
      · rw [if_pos hc] at h; exact absurd h (by simp)
      · rw [if_neg hc] at h
        by_cases hp : c.isPrefixOf (b :: rest)
        · rw [if_pos hp] at h
          obtain ⟨k', hk', rfl⟩ := map_bump1_eq_brk h
          have := ih _ _ _ hk'
          simp only [List.length_cons]
          omega
        · rw [if_neg hp] at h
          obtain ⟨k', hk', rfl⟩ := map_bump1_eq_brk h
          have := ih _ _ _ hk'
          simp only [List.length_cons]
          omega

theorem jsRunF_progress : ∀ (f : Nat) (bs : List Nat), bs.length < f → jsRunF f bs ≠ none := by
  intro f
  induction f with
  | zero => intro bs h; omega
  | succ f ih =>
    intro bs h
    rcases bs with _ | ⟨b, rest⟩
    · simp [jsRunF]
    · rw [jsRunF_succ_cons]
      have hlen : rest.length < f := by
        simp only [List.length_cons] at h
        omega
      by_cases hc : contB b
      · rw [if_pos hc]; simp
      · rw [if_neg hc]
        by_cases h10 : b = 10
        · rw [if_pos h10]
          exact mapOut_ne_none (ih rest hlen)
        · rw [if_neg h10]
          by_cases hlc : b = 47 ∧ rest.head? = some 47
          · rw [if_pos hlc]
            rcases hx : lineCommentLen (b :: rest) with _ | k
            · simp
            · have hk : 1 ≤ k := lineCommentLen_cons_pos h10 hx
              show mapOut (fun o => 32 :: o) (jsRunF f ((b :: rest).drop k)) ≠ none
              apply mapOut_ne_none
              apply ih
              rw [List.length_drop]
              simp only [List.length_cons]
              omega
          · rw [if_neg hlc]
            by_cases hbc : b = 47 ∧ rest.head? = some 42
            · rw [if_pos hbc]
              rcases hx : blockCommentLen (b :: rest) with _ | k
              · simp
              · have hb42 : b ≠ 42 := by rw [hbc.1]; omega
                have hk : 1 ≤ k := blockCommentLen_cons_pos hb42 hx
                show mapOut (fun o => 32 :: o) (jsRunF f ((b :: rest).drop k)) ≠ none
                apply mapOut_ne_none
                apply ih
                rw [List.length_drop]
                simp only [List.length_cons]
                omega
            · rw [if_neg hbc]
              rcases hx : rejectScan JSJunkState.Normal (b :: rest) none with _ | (k | st)
              · simp
              · have hk : 1 ≤ k := rejectScan_cons_brk_pos h10 hlc hbc hx
                show mapOut (fun o => (b :: rest).take k ++ o) (jsRunF f ((b :: rest).drop k)) ≠ none
                apply mapOut_ne_none
                apply ih
                rw [List.length_drop]
                simp only [List.length_cons]
                omega
              · simp

theorem lineCommentLen_total (l : List Nat) (hall : ∀ x ∈ l, contB x = false) :
    ∃ k, lineCommentLen l = some k := by
  induction l with
  | nil => exact ⟨0, rfl⟩
  | cons b rest ih =>
    have hb : contB b = false := hall b (by simp)
    obtain ⟨k, hk⟩ := ih (fun x hx => hall x (by simp [hx]))
    by_cases h10 : b = 10
    · exact ⟨0, by rw [lineCommentLen, if_neg (by simp [hb]), if_pos h10]⟩
    · exact ⟨k + 1, by rw [lineCommentLen, if_neg (by simp [hb]), if_neg h10, hk]; rfl⟩

theorem blockCommentLen_total (l : List Nat) (hall : ∀ x ∈ l, contB x = false) :
    ∃ k, blockCommentLen l = some k := by
  induction l with
  | nil => exact ⟨0, rfl⟩
  | cons b rest ih =>
    have hb : contB b = false := hall b (by simp)
    obtain ⟨k, hk⟩ := ih (fun x hx => hall x (by simp [hx]))
    by_cases hcl : b = 42 ∧ rest.head? = some 47
    · exact ⟨0, by rw [blockCommentLen, if_neg (by simp [hb]), if_pos hcl]⟩
    · exact ⟨k + 1, by rw [blockCommentLen, if_neg (by simp [hb]), if_neg hcl, hk]; rfl⟩

theorem rejectScan_total (l : List Nat) :
    ∀ (st : JSJunkState) (la : Option Nat), (∀ x ∈ l, contB x = false) →
      ∃ r, rejectScan st l la = some r := by
  induction l with
  | nil => intro st la _; exact ⟨ScanRes.eof st, rfl⟩
  | cons b rest ih =>
    intro st la hall
    have hb : contB b = false := hall b (by simp)
    have hrest : ∀ x ∈ rest, contB x = false := fun x hx => hall x (by simp [hx])
    rcases st with _ | c
    · rw [rejectScan_normal_cons, if_neg (by simp [hb])]
      by_cases hq : b = 39 ∨ b = 34
      · rw [if_pos hq]
        obtain ⟨r, hr⟩ := ih (JSJunkState.InLiteral []) la hrest
        exact ⟨bump1 r, by rw [hr]; rfl⟩
      · rw [if_neg hq]
        by_cases hbrk : (b = 47 ∧ headOr rest la = some 47) ∨
            (b = 47 ∧ headOr rest la = some 42) ∨ b = 10
        · rw [if_pos hbrk]
          exact ⟨ScanRes.brk 0, rfl⟩
        · rw [if_neg hbrk]
          obtain ⟨r, hr⟩ := ih JSJunkState.Normal la hrest
          exact ⟨bump1 r, by rw [hr]; rfl⟩
    · rw [rejectScan_inlit_cons, if_neg (by simp [hb])]
      by_cases hp : c.isPrefixOf (b :: rest)
      · rw [if_pos hp]
        obtain ⟨r, hr⟩ := ih JSJunkState.Normal la hrest
        exact ⟨bump1 r, by rw [hr]; rfl⟩
      · rw [if_neg hp]
        obtain ⟨r, hr⟩ := ih (JSJunkState.InLiteral c) la hrest
        exact ⟨bump1 r, by rw [hr]; rfl⟩

theorem jsRunF_total : ∀ (f : Nat) (bs : List Nat), bs.length < f →
    (∀ x ∈ bs, contB x = false) → ∃ o, jsRunF f bs = some (some o) := by
  intro f
  induction f with
  | zero => intro bs h _; omega
  | succ f ih =>
    intro bs h hall
    rcases bs with _ | ⟨b, rest⟩
    · exact ⟨[], rfl⟩
    · have hb : contB b = false := hall b (by simp)
      have hrest : ∀ x ∈ rest, contB x = false := fun x hx => hall x (by simp [hx])
      have hdropall : ∀ k, ∀ x ∈ (b :: rest).drop k, contB x = false :=
        fun k x hx => hall x (List.drop_subset k (b :: rest) hx)
      have hlen : rest.length < f := by
        simp only [List.length_cons] at h
        omega
      rw [jsRunF_succ_cons, if_neg (by simp [hb])]
      by_cases h10 : b = 10
      · rw [if_pos h10]
        obtain ⟨o, ho⟩ := ih rest hlen hrest
        exact ⟨32 :: o, by rw [ho]; rfl⟩
      · rw [if_neg h10]
        by_cases hlc : b = 47 ∧ rest.head? = some 47
        · rw [if_pos hlc]
          obtain ⟨k, hk⟩ := lineCommentLen_total (b :: rest) hall
          rw [hk]
          have hkpos : 1 ≤ k := lineCommentLen_cons_pos h10 hk
          obtain ⟨o, ho⟩ := ih ((b :: rest).drop k)
            (by rw [List.length_drop]; simp only [List.length_cons]; omega)
            (hdropall k)
          refine ⟨32 :: o, ?_⟩
          show mapOut (fun o => 32 :: o) (jsRunF f ((b :: rest).drop k)) = some (some (32 :: o))
          rw [ho]
          rfl
        · rw [if_neg hlc]
          by_cases hbc : b = 47 ∧ rest.head? = some 42
          · rw [if_pos hbc]
            obtain ⟨k, hk⟩ := blockCommentLen_total (b :: rest) hall
            rw [hk]
            have hkpos : 1 ≤ k :=
              blockCommentLen_cons_pos (by rw [hbc.1]; omega) hk
            obtain ⟨o, ho⟩ := ih ((b :: rest).drop k)
              (by rw [List.length_drop]; simp only [List.length_cons]; omega)
              (hdropall k)
            refine ⟨32 :: o, ?_⟩
            show mapOut (fun o => 32 :: o) (jsRunF f ((b :: rest).drop k)) =
              some (some (32 :: o))
            rw [ho]
            rfl
          · rw [if_neg hbc]
            obtain ⟨r, hr⟩ := rejectScan_total (b :: rest) JSJunkState.Normal none hall
            rw [hr]
            rcases r with k | st
            · have hkpos : 1 ≤ k := rejectScan_cons_brk_pos h10 hlc hbc hr
              obtain ⟨o, ho⟩ := ih ((b :: rest).drop k)
                (by rw [List.length_drop]; simp only [List.length_cons]; omega)
                (hdropall k)
              refine ⟨(b :: rest).take k ++ o, ?_⟩
              show mapOut (fun o => (b :: rest).take k ++ o) (jsRunF f ((b :: rest).drop k)) =
                some (some ((b :: rest).take k ++ o))
              rw [ho]
              rfl
            · exact ⟨b :: rest, rfl⟩

theorem blockCommentLen_no_close (l : List Nat) (hall : ∀ x ∈ l, contB x = false)
    (hs : hasStarSlash l = false) : blockCommentLen l = some l.length := by
  induction l with
  | nil => rfl
  | cons b rest ih =>
    have hb : contB b = false := hall b (by simp)
    have hrest : ∀ x ∈ rest, contB x = false := fun x hx => hall x (by simp [hx])
    have hcl : ¬(b = 42 ∧ rest.head? = some 47) := by
      rintro ⟨hb42, hh⟩
      rcases rest with _ | ⟨r, rs⟩
      · simp at hh
      · simp only [List.head?_cons, Option.some.injEq] at hh
        rw [hasStarSlash, hb42, hh] at hs
        simp at hs
    have hsrest : hasStarSlash rest = false := by
      rcases rest with _ | ⟨r, rs⟩
      · rfl
      · rw [hasStarSlash] at hs
        exact (Bool.or_eq_false_iff.mp hs).2
    rw [blockCommentLen, if_neg (by simp [hb]), if_neg hcl, ih hrest hsrest]
    simp

/-- C8 amended: an unterminated block comment is NOT a build-time error — the
block-comment loop simply stops at end of input, the whole tail is matched,
and the replacement produces output consisting of a single space.  For every
continuation-byte-free tail after an opening marker, with no closing marker
anywhere in it, preprocessing the open comment succeeds and yields exactly
one space. -/
theorem c8_unterminated_not_error (bs : List Nat)
    (hall : ∀ x ∈ bs, contB x = false)
    (hs : hasStarSlash (42 :: bs) = false) :
    jsJunkReplace (47 :: 42 :: bs) = some [32] := by
  have hall2 : ∀ x ∈ 47 :: 42 :: bs, contB x = false := by
    intro x hx
    simp only [List.mem_cons] at hx
    rcases hx with rfl | rfl | hx
    · decide
    · decide
    · exact hall x hx
  have hs2 : hasStarSlash (47 :: 42 :: bs) = false := by
    rw [hasStarSlash]
    simp only [hs, Bool.or_false]
    decide
  have hbl : blockCommentLen (47 :: 42 :: bs) = some (47 :: 42 :: bs).length :=
    blockCommentLen_no_close _ hall2 hs2
  rw [jsJunkReplace, jsRunF_succ_cons,
      if_neg (show ¬(contB 47 = true) by decide),
      if_neg (show ¬((47 : Nat) = 10) by decide),
      if_neg (show ¬((47 : Nat) = 47 ∧ (42 :: bs).head? = some 47) by
        rintro ⟨_, hh⟩
        simp at hh),
      if_pos (show (47 : Nat) = 47 ∧ (42 :: bs).head? = some 42 from ⟨rfl, rfl⟩),
      hbl]
  show (mapOut (fun o => 32 :: o)
      (jsRunF (47 :: 42 :: bs).length ((47 :: 42 :: bs).drop (47 :: 42 :: bs).length))).getD
      none = some [32]
  rw [List.drop_length]
  have hlen : (47 :: 42 :: bs).length = bs.length + 1 + 1 := by simp
  rw [hlen]
  rfl

theorem c8_unterminated_witness : jsJunkReplace [47, 42, 97] = some [32] :=
  c8_unterminated_not_error [97] (by decide) (by decide)

/-- C10 amended: the preprocessor is total on every input containing no UTF-8
continuation byte (for valid UTF-8 input: exactly the ASCII inputs) — the
replacement terminates and produces an output, with no abort.  On inputs with
multi-byte characters it instead reaches a position off a character boundary
and panics. -/
theorem c10_total_on_ascii (bs : List Nat) (hall : ∀ x ∈ bs, contB x = false) :
    ∃ o, jsJunkReplace bs = some o := by
  obtain ⟨o, ho⟩ := jsRunF_total (bs.length + 1) bs (by omega) hall
  exact ⟨o, by rw [jsJunkReplace, ho]; rfl⟩

theorem c10_total_witness : ∃ o, jsJunkReplace [104, 105] = some o :=
  c10_total_on_ascii [104, 105] (by decide)

theorem shiftRes_zero (x : Option ScanRes) : shiftRes 0 x = x := by
  rcases x with _ | (k | st) <;> rfl

theorem shiftRes_map_bump1 (n : Nat) (y : Option ScanRes) :
    (shiftRes n y).map bump1 = shiftRes (n + 1) y := by
  rcases y with _ | (k | st) <;> rfl

theorem contScan_map_bump1 (ys : List Nat) (la : Option Nat) (n : Nat)
    (x : Option ScanRes) :
    (contScan ys la n x).map bump1 = contScan ys la (n + 1) (x.map bump1) := by
  rcases x with _ | (k | st)
  · rfl
  · rfl
  · show (shiftRes n (rejectScan st ys la)).map bump1 = shiftRes (n + 1) (rejectScan st ys la)
    exact shiftRes_map_bump1 n (rejectScan st ys la)

theorem rejectScan_append (xs : List Nat) :
    ∀ (st : JSJunkState) (ys : List Nat) (la : Option Nat), stOk st →
      rejectScan st (xs ++ ys) la =
        contScan ys la xs.length (rejectScan st xs (headOr ys la)) := by
  induction xs with
  | nil =>
    intro st ys la _
    show rejectScan st ys la = shiftRes 0 (rejectScan st ys la)
    rw [shiftRes_zero]
  | cons b xs ih =>
    intro st ys la hst
    rcases hst with rfl | rfl
    · rw [List.cons_append, rejectScan_normal_cons, rejectScan_normal_cons]
      by_cases hc : contB b
      · rw [if_pos hc, if_pos hc]; rfl
      · rw [if_neg hc, if_neg hc]
        by_cases hq : b = 39 ∨ b = 34
        · rw [if_pos hq, if_pos hq, ih (JSJunkState.InLiteral []) ys la (Or.inr rfl),
              contScan_map_bump1]
          rfl
        · rw [if_neg hq, if_neg hq, headOr_append]
          by_cases hbrk : (b = 47 ∧ headOr xs (headOr ys la) = some 47) ∨
              (b = 47 ∧ headOr xs (headOr ys la) = some 42) ∨ b = 10
          · rw [if_pos hbrk, if_pos hbrk]; rfl
          · rw [if_neg hbrk, if_neg hbrk, ih JSJunkState.Normal ys la (Or.inl rfl),
                contScan_map_bump1]
            rfl
    · rw [List.cons_append, rejectScan_inlit_cons, rejectScan_inlit_cons]
      by_cases hc : contB b
      · rw [if_pos hc, if_pos hc]; rfl
      · rw [if_neg hc, if_neg hc,
            if_pos (show ([] : List Nat).isPrefixOf (b :: (xs ++ ys)) = true from rfl),
            if_pos (show ([] : List Nat).isPrefixOf (b :: xs) = true from rfl),
            ih JSJunkState.Normal ys la (Or.inl rfl), contScan_map_bump1]
        rfl

theorem rejectScan_eof_la (xs : List Nat) :
    ∀ (st : JSJunkState) (la la' : Option Nat) (st' : JSJunkState), stOk st →
      rejectScan st xs la = some (ScanRes.eof st') →
      la' ≠ some 47 → la' ≠ some 42 →
      rejectScan st xs la' = some (ScanRes.eof st') := by
  induction xs with
  | nil =>
    intro st la la' st' _ h _ _
    exact h
  | cons b xs ih =>
    intro st la la' st' hst h hla47 hla42
    rcases hst with rfl | rfl
    · rw [rejectScan_normal_cons] at h ⊢
      by_cases hc : contB b
      · rw [if_pos hc] at h; exact absurd h (by simp)
      · rw [if_neg hc] at h ⊢
        by_cases hq : b = 39 ∨ b = 34
        · rw [if_pos hq] at h ⊢
          have h2 := map_bump1_eq_eof h
          rw [ih _ la la' st' (Or.inr rfl) h2 hla47 hla42]
          rfl
        · rw [if_neg hq] at h ⊢
          by_cases hbrk : (b = 47 ∧ headOr xs la = some 47) ∨
              (b = 47 ∧ headOr xs la = some 42) ∨ b = 10
          · rw [if_pos hbrk] at h; exact absurd h (by simp)
          · have hbrk' : ¬((b = 47 ∧ headOr xs la' = some 47) ∨
                (b = 47 ∧ headOr xs la' = some 42) ∨ b = 10) := by
              rcases xs with _ | ⟨x, xs2⟩
              · rintro (⟨hb47, hh⟩ | ⟨hb47, hh⟩ | hb10)
                · exact hla47 hh
                · exact hla42 hh
                · exact hbrk (Or.inr (Or.inr hb10))
              · intro hx
                exact hbrk hx
            rw [if_neg hbrk] at h
            rw [if_neg hbrk']
            have h2 := map_bump1_eq_eof h
            rw [ih _ la la' st' (Or.inl rfl) h2 hla47 hla42]
            rfl
    · rw [rejectScan_inlit_cons] at h ⊢
      by_cases hc : contB b
      · rw [if_pos hc] at h; exact absurd h (by simp)
      · rw [if_neg hc] at h ⊢
        rw [if_pos (show ([] : List Nat).isPrefixOf (b :: xs) = true from rfl)] at h ⊢
        have h2 := map_bump1_eq_eof h
        rw [ih _ la la' st' (Or.inl rfl) h2 hla47 hla42]
        rfl

theorem rejectScan_eof_stOk (xs : List Nat) :
    ∀ (st : JSJunkState) (la : Option Nat) (st' : JSJunkState), stOk st →
      rejectScan st xs la = some (ScanRes.eof st') → stOk st' := by
  induction xs with
  | nil =>
    intro st la st' hst h
    have h' : some (ScanRes.eof st) = some (ScanRes.eof st') := h
    simp only [Option.some.injEq, ScanRes.eof.injEq] at h'
    rw [← h']
    exact hst
  | cons b xs ih =>
    intro st la st' hst h
    rcases hst with rfl | rfl
    · rw [rejectScan_normal_cons] at h
      by_cases hc : contB b
      · rw [if_pos hc] at h; exact absurd h (by simp)
      · rw [if_neg hc] at h
        by_cases hq : b = 39 ∨ b = 34
        · rw [if_pos hq] at h
          exact ih _ la st' (Or.inr rfl) (map_bump1_eq_eof h)
        · rw [if_neg hq] at h
          by_cases hbrk : (b = 47 ∧ headOr xs la = some 47) ∨
              (b = 47 ∧ headOr xs la = some 42) ∨ b = 10
          · rw [if_pos hbrk] at h; exact absurd h (by simp)
          · rw [if_neg hbrk] at h
            exact ih _ la st' (Or.inl rfl) (map_bump1_eq_eof h)
    · rw [rejectScan_inlit_cons] at h
      by_cases hc : contB b
      · rw [if_pos hc] at h; exact absurd h (by simp)
      · rw [if_neg hc,
            if_pos (show ([] : List Nat).isPrefixOf (b :: xs) = true from rfl)] at h
        exact ih _ la st' (Or.inl rfl) (map_bump1_eq_eof h)

theorem rejectScan_brk0 (l : List Nat) (st : JSJunkState) (hst : stOk st)
    (h : rejectScan st l none = some (ScanRes.brk 0)) :
    ∃ c cs, l = c :: cs ∧ st = JSJunkState.Normal ∧ contB c = false ∧
      (c = 10 ∨ (c = 47 ∧ cs.head? = some 47) ∨ (c = 47 ∧ cs.head? = some 42)) := by
  rcases l with _ | ⟨c, cs⟩
  · exact absurd (show some (ScanRes.eof st) = some (ScanRes.brk 0) from h) (by simp)
  · rcases hst with rfl | rfl
    · rw [rejectScan_normal_cons] at h
      by_cases hc : contB c
      · rw [if_pos hc] at h; exact absurd h (by simp)
      · rw [if_neg hc] at h
        by_cases hq : c = 39 ∨ c = 34
        · rw [if_pos hq] at h
          obtain ⟨k', _, hk⟩ := map_bump1_eq_brk h
          omega
        · rw [if_neg hq] at h
          by_cases hbrk : (c = 47 ∧ headOr cs none = some 47) ∨
              (c = 47 ∧ headOr cs none = some 42) ∨ c = 10
          · refine ⟨c, cs, rfl, rfl, by simpa using hc, ?_⟩
            rw [headOr_none] at hbrk
            tauto
          · rw [if_neg hbrk] at h
            obtain ⟨k', _, hk⟩ := map_bump1_eq_brk h
            omega
    · rw [rejectScan_inlit_cons] at h
      by_cases hc : contB c
      · rw [if_pos hc] at h; exact absurd h (by simp)
      · rw [if_neg hc,
            if_pos (show ([] : List Nat).isPrefixOf (c :: cs) = true from rfl)] at h
        obtain ⟨k', _, hk⟩ := map_bump1_eq_brk h
        omega

theorem strongInert_cons_space (o : List Nat) (h : StrongInert o) :
    StrongInert (32 :: o) := by
  have hbrk32 : ¬(((32 : Nat) = 47 ∧ headOr o none = some 47) ∨
      ((32 : Nat) = 47 ∧ headOr o none = some 42) ∨ (32 : Nat) = 10) := by
    rintro (⟨hx, _⟩ | ⟨hx, _⟩ | hx) <;> exact absurd hx (by decide)
  constructor
  · exact ⟨by decide, by decide,
      by rintro ⟨hx, _⟩; exact absurd hx (by decide),
      by rintro ⟨hx, _⟩; exact absurd hx (by decide)⟩
  · right
    rw [rejectScan_normal_cons,
        if_neg (show ¬(contB 32 = true) by decide),
        if_neg (show ¬((32 : Nat) = 39 ∨ (32 : Nat) = 34) by decide),
        if_neg hbrk32]
    rcases h.2 with rfl | ⟨st, hscan⟩
    · exact ⟨JSJunkState.Normal, rfl⟩
    · exact ⟨st, by rw [hscan]; rfl⟩

theorem jsRunF_head_match (f : Nat) (c : Nat) (cs : List Nat) (o : List Nat)
    (hcont : contB c = false)
    (hc : c = 10 ∨ (c = 47 ∧ cs.head? = some 47) ∨ (c = 47 ∧ cs.head? = some 42))
    (h : jsRunF f (c :: cs) = some (some o)) :
    ∃ o2, o = 32 :: o2 := by
  rcases f with _ | f
  · exact absurd (show (none : Option (Option (List Nat))) = some (some o) from h)
      (by simp)
  · rw [jsRunF_succ_cons, if_neg (by simp [hcont])] at h
    rcases hc with h10 | hlc | hbc
    · rw [if_pos h10] at h
      obtain ⟨o₀, _, rfl⟩ := mapOut_eq_some h
      exact ⟨o₀, rfl⟩
    · have h10 : ¬(c = 10) := by rw [hlc.1]; decide
      rw [if_neg h10, if_pos hlc] at h
      rcases hx : lineCommentLen (c :: cs) with _ | k
      · rw [hx] at h
        exact absurd (show some (none : Option (List Nat)) = some (some o) from h)
          (by simp)
      · rw [hx] at h
        have h' : mapOut (fun o => 32 :: o) (jsRunF f ((c :: cs).drop k)) =
            some (some o) := h
        obtain ⟨o₀, _, rfl⟩ := mapOut_eq_some h'
        exact ⟨o₀, rfl⟩
    · have h10 : ¬(c = 10) := by rw [hbc.1]; decide
      have hlcneg : ¬(c = 47 ∧ cs.head? = some 47) := by
        rintro ⟨_, hh⟩
        rw [hbc.2] at hh
        simp at hh
      rw [if_neg h10, if_neg hlcneg, if_pos hbc] at h
      rcases hx : blockCommentLen (c :: cs) with _ | k
      · rw [hx] at h
        exact absurd (show some (none : Option (List Nat)) = some (some o) from h)
          (by simp)
      · rw [hx] at h
        have h' : mapOut (fun o => 32 :: o) (jsRunF f ((c :: cs).drop k)) =
            some (some o) := h
        obtain ⟨o₀, _, rfl⟩ := mapOut_eq_some h'
        exact ⟨o₀, rfl⟩

theorem strongInert_reject (f : Nat) (b : Nat) (rest : List Nat) (k : Nat) (o' : List Nat)
    (hc : ¬contB b = true) (h10 : ¬b = 10)
    (hlc : ¬(b = 47 ∧ rest.head? = some 47)) (hbc : ¬(b = 47 ∧ rest.head? = some 42))
    (hx : rejectScan JSJunkState.Normal (b :: rest) none = some (ScanRes.brk k))
    (hrun : jsRunF f ((b :: rest).drop k) = some (some o'))
    (hsi : StrongInert o') :
    StrongInert ((b :: rest).take k ++ o') := by
  have hklt : k < (b :: rest).length := rejectScan_brk_lt _ _ _ _ hx
  have hkpos : 1 ≤ k := rejectScan_cons_brk_pos h10 hlc hbc hx
  have hlentake : ((b :: rest).take k).length = k := by
    rw [List.length_take]
    omega
  have hsplit := rejectScan_append ((b :: rest).take k) JSJunkState.Normal
    ((b :: rest).drop k) none (Or.inl rfl)
  rw [List.take_append_drop, hx] at hsplit
  rcases hpre : rejectScan JSJunkState.Normal ((b :: rest).take k)
      (headOr ((b :: rest).drop k) none) with _ | (j | st₁)
  · rw [hpre] at hsplit
    exact absurd hsplit (by simp [contScan])
  · rw [hpre] at hsplit
    have hj := rejectScan_brk_lt _ _ _ _ hpre
    rw [hlentake] at hj
    have hkj : some (ScanRes.brk k) = some (ScanRes.brk j) := hsplit
    simp only [Option.some.injEq, ScanRes.brk.injEq] at hkj
    omega
  · rw [hpre] at hsplit
    have hst₁ : stOk st₁ := rejectScan_eof_stOk _ _ _ _ (Or.inl rfl) hpre
    have hsplit' : some (ScanRes.brk k) =
        shiftRes ((b :: rest).take k).length
          (rejectScan st₁ ((b :: rest).drop k) none) := hsplit
    rcases hdscan : rejectScan st₁ ((b :: rest).drop k) none with _ | (k₂ | st₂)
    · rw [hdscan] at hsplit'
      exact absurd hsplit' (by simp [shiftRes])
    · rw [hdscan] at hsplit'
      have hk2 : k = k₂ + ((b :: rest).take k).length := by
        have h2 : some (ScanRes.brk k) =
            some (ScanRes.brk (k₂ + ((b :: rest).take k).length)) := hsplit'
        simp only [Option.some.injEq, ScanRes.brk.injEq] at h2
        exact h2
      rw [hlentake] at hk2
      have hk20 : k₂ = 0 := by omega
      rw [hk20] at hdscan
      obtain ⟨c, cs, hdeq, hstN, hcontc, hcond⟩ := rejectScan_brk0 _ st₁ hst₁ hdscan
      subst hstN
      obtain ⟨o₂, rfl⟩ := jsRunF_head_match f c cs o' hcontc hcond
        (by rw [hdeq] at hrun; exact hrun)
      have hheadla : headOr ((b :: rest).drop k) none = some c := by rw [hdeq]; rfl
      rw [hheadla] at hpre
      have hpre32 : rejectScan JSJunkState.Normal ((b :: rest).take k) (some 32) =
          some (ScanRes.eof JSJunkState.Normal) :=
        rejectScan_eof_la _ _ _ _ _ (Or.inl rfl) hpre (by simp) (by simp)
      constructor
      · obtain ⟨k', rfl⟩ : ∃ k', k = k' + 1 := ⟨k - 1, by omega⟩
        rw [List.take_succ_cons]
        rcases k' with _ | k''
        · show headGuards (b :: 32 :: o₂)
          exact ⟨by simpa using hc, h10,
            by rintro ⟨_, hh⟩; simp at hh,
            by rintro ⟨_, hh⟩; simp at hh⟩
        · rcases rest with _ | ⟨x, rest₂⟩
          · simp only [List.length_cons, List.length_nil] at hklt
            omega
          · rw [List.take_succ_cons]
            show headGuards (b :: x :: (List.take k'' rest₂ ++ 32 :: o₂))
            refine ⟨by simpa using hc, h10, ?_, ?_⟩
            · rintro ⟨hb47, hh⟩
              simp only [List.head?_cons, Option.some.injEq] at hh
              exact hlc ⟨hb47, by rw [List.head?_cons, hh]⟩
            · rintro ⟨hb47, hh⟩
              simp only [List.head?_cons, Option.some.injEq] at hh
              exact hbc ⟨hb47, by rw [List.head?_cons, hh]⟩
      · right
        rw [rejectScan_append ((b :: rest).take k) JSJunkState.Normal
          (32 :: o₂) none (Or.inl rfl)]
        have hho : headOr (32 :: o₂) none = some 32 := rfl
        rw [hho, hpre32]
        rcases hsi.2 with habs | ⟨st₃, hscan32⟩
        · exact absurd habs (by simp)
        · refine ⟨st₃, ?_⟩
          show shiftRes ((b :: rest).take k).length
            (rejectScan JSJunkState.Normal (32 :: o₂) none) = some (ScanRes.eof st₃)
          rw [hscan32]
          rfl
    · rw [hdscan] at hsplit'
      exact absurd hsplit' (by simp [shiftRes])

theorem jsRunF_strongInert : ∀ (f : Nat) (bs o : List Nat),
    jsRunF f bs = some (some o) → StrongInert o := by
  intro f
  induction f with
  | zero =>
    intro bs o h
    exact absurd (show (none : Option (Option (List Nat))) = some (some o) from h)
      (by simp)
  | succ f ih =>
    intro bs o h
    rcases bs with _ | ⟨b, rest⟩
    · have h' : some (some ([] : List Nat)) = some (some o) := h
      simp only [Option.some.injEq] at h'
      rw [← h']
      exact ⟨trivial, Or.inl rfl⟩
    · rw [jsRunF_succ_cons] at h
      by_cases hc : contB b
      · rw [if_pos hc] at h
        exact absurd h (by simp)
      · rw [if_neg hc] at h
        by_cases h10 : b = 10
        · rw [if_pos h10] at h
          obtain ⟨o', ho', rfl⟩ := mapOut_eq_some h
          exact strongInert_cons_space o' (ih rest o' ho')
        · rw [if_neg h10] at h
          by_cases hlc : b = 47 ∧ rest.head? = some 47
          · rw [if_pos hlc] at h
            rcases hx : lineCommentLen (b :: rest) with _ | k
            · rw [hx] at h
              exact absurd (show some (none : Option (List Nat)) = some (some o) from h)
                (by simp)
            · rw [hx] at h
              have h' : mapOut (fun o => 32 :: o) (jsRunF f ((b :: rest).drop k)) =
                  some (some o) := h
              obtain ⟨o', ho', rfl⟩ := mapOut_eq_some h'
              exact strongInert_cons_space o' (ih _ o' ho')
          · rw [if_neg hlc] at h
            by_cases hbc : b = 47 ∧ rest.head? = some 42
            · rw [if_pos hbc] at h
              rcases hx : blockCommentLen (b :: rest) with _ | k
              · rw [hx] at h
                exact absurd (show some (none : Option (List Nat)) = some (some o) from h)
                  (by simp)
              · rw [hx] at h
                have h' : mapOut (fun o => 32 :: o) (jsRunF f ((b :: rest).drop k)) =
                    some (some o) := h
                obtain ⟨o', ho', rfl⟩ := mapOut_eq_some h'
                exact strongInert_cons_space o' (ih _ o' ho')
            · rw [if_neg hbc] at h
              rcases hx : rejectScan JSJunkState.Normal (b :: rest) none with _ | (k | st)
              · rw [hx] at h
                exact absurd (show some (none : Option (List Nat)) = some (some o) from h)
                  (by simp)
              · rw [hx] at h
                have h' : mapOut (fun o => (b :: rest).take k ++ o)
                    (jsRunF f ((b :: rest).drop k)) = some (some o) := h
                obtain ⟨o', ho', rfl⟩ := mapOut_eq_some h'
                exact strongInert_reject f b rest k o' hc h10 hlc hbc hx ho' (ih _ o' ho')
              · rw [hx] at h
                have h' : some (some (b :: rest)) = some (some o) := h
                simp only [Option.some.injEq] at h'
                rw [← h']
                refine ⟨⟨by simpa using hc, h10, hlc, hbc⟩, Or.inr ⟨st, hx⟩⟩

theorem strongInert_fixed (o : List Nat) (h : StrongInert o) (f : Nat) :
    jsRunF (f + 1) o = some (some o) := by
  rcases o with _ | ⟨b, rest⟩
  · rfl
  · obtain ⟨⟨hcont, h10, hlc, hbc⟩, h2⟩ := h
    rcases h2 with habs | ⟨st, hscan⟩
    · exact absurd habs (by simp)
    · rw [jsRunF_succ_cons, if_neg (by simp [hcont]), if_neg h10, if_neg hlc,
          if_neg hbc, hscan]

/-- C7: the preprocessor is idempotent — whenever preprocessing an input
succeeds with output `o`, preprocessing `o` again returns `o` unchanged.
Every output is a single reject span of the searcher (`jsRunF_strongInert`):
match spans are replaced by spaces, which start no match, quote characters
survive in reject spans at the offsets that protected them, and the scan of
an output never breaks. -/
theorem c7_preprocess_idempotent (bs o : List Nat) (h : jsJunkReplace bs = some o) :
    jsJunkReplace o = some o := by
  have h2 : jsRunF (bs.length + 1) bs = some (some o) := by
    rw [jsJunkReplace] at h
    rcases hx : jsRunF (bs.length + 1) bs with _ | (_ | o')
    · rw [hx] at h
      simp at h
    · rw [hx] at h
      simp at h
    · rw [hx] at h
      simp only [Option.getD_some, Option.some.injEq] at h
      rw [h]
  have hsi := jsRunF_strongInert (bs.length + 1) bs o h2
  rw [jsJunkReplace, strongInert_fixed o hsi o.length]
  rfl

theorem c7_witness : jsJunkReplace [97, 32, 98] = some [97, 32, 98] :=
  c7_preprocess_idempotent [97, 10, 98] [97, 32, 98] (by decide)

theorem c4_witness :
    (hostArray (fun h => HVal.loaded h)
      (js_from_vec (fun q : ℚ => ⟨q, false⟩) 7 [1, 2, 3]).2).length = 3 := by
  have h := (c4_array_order ℚ (fun q => ⟨q, false⟩) 7 [1, 2, 3]
    (fun h => HVal.loaded h)).2.2
  simpa using h
